import Mathlib

/-!
Shallow embedding of `survey_analysis.py`, a one-shot survey text-analysis
script.  Pandas cells are modelled as `Option String` (`none` = NA/missing),
the spaCy pipeline `nlp` as an abstract parameter `String → List Token`
(each spaCy token exposes `lemma_`, `pos_`, `is_alpha`, `is_stop`), and the
script's global mutable accumulators as an explicit `AnalysisState` threaded
through a fold over the rows.  Python's `str.lower` is modelled by the
basic-latin `Char.toLower` (the script's data is ASCII), `str.strip` and
`re.sub(r's+', ' ', _)` by explicit character-list operations.
-/

/-- One annotated spaCy token: lemma, coarse POS tag, alphabetic flag,
stop-word flag, mirroring the attributes `survey_analysis.py` reads. -/
structure Token where
  lemma_ : String
  pos_ : String
  is_alpha : Bool
  is_stop : Bool
  deriving DecidableEq, Repr

/-- Python regex class `\s` restricted to ASCII: the whitespace characters
recognised by `str.strip()` and `re.sub(r'\s+', ' ', _)`. -/
def isPySpace (c : Char) : Bool :=
  c = ' ' || c = '\t' || c = '\n' || c = '\x0d' || c = '\x0c' || c = '\x0b'

/-- Python `str.strip()` on a character list: drop leading and trailing
whitespace. -/
def pyStrip (l : List Char) : List Char :=
  ((l.dropWhile isPySpace).reverse.dropWhile isPySpace).reverse

/-- Python `re.sub(r'\s+', ' ', s)`: replace every maximal run of whitespace
characters with a single space. -/
def collapseWS : List Char → List Char
  | [] => []
  | [c] => if isPySpace c then [' '] else [c]
  | c :: d :: rest =>
    if isPySpace c then
      if isPySpace d then collapseWS (d :: rest)
      else ' ' :: collapseWS (d :: rest)
    else c :: collapseWS (d :: rest)

/-- The normalisation step of `extract_adjectives`, line 29 of the source:
`re.sub(r'\s+', ' ', str(adj_string).lower().strip())` — lowercase, strip,
then collapse whitespace runs. -/
def pyNormalize (s : String) : String :=
  String.mk (collapseWS (pyStrip (s.data.map Char.toLower)))

/-- A character the splitter regex `[,\s;]+` of line 31 matches on. -/
def isSep (c : Char) : Bool :=
  c = ',' || isPySpace c || c = ';'

/-- Split a character list at every separator character.  `re.split` with
pattern `[,\s;]+` splits at maximal separator runs; splitting at single
separators differs from that only by extra empty items, which the
comprehension in line 31 filters away, so the composite below is the
behaviour of the source. -/
def splitOnSeps : List Char → List (List Char)
  | [] => [[]]
  | c :: rest =>
    if isSep c then [] :: splitOnSeps rest
    else
      match splitOnSeps rest with
      | [] => [[c]]
      | g :: gs => (c :: g) :: gs

/-- Lines 25-31: `extract_adjectives(adj_string)` — `[]` on NA, otherwise
normalise, split on comma/semicolon/whitespace runs, keep the stripped
non-empty items. -/
def extract_adjectives (adj_string : Option String) : List String :=
  match adj_string with
  | none => []
  | some s =>
    (splitOnSeps (pyNormalize s).data).filterMap fun item =>
      let t := pyStrip item
      if t = [] then none else some (String.mk t)

/-- Lines 34-38: `tokenize_description(text)` — `[]` on NA, otherwise
lowercase, annotate, and keep the lemma of every alphabetic non-stopword
token. -/
def tokenize_description (nlp : String → List Token) (text : Option String) :
    List String :=
  match text with
  | none => []
  | some t =>
    ((nlp (String.mk (t.data.map Char.toLower))).filter fun tok =>
      tok.is_alpha && !tok.is_stop).map (·.lemma_)

/-- Lines 53-57: `extract_nouns(text)` — as `tokenize_description` but also
requiring POS tag `NOUN` or `PROPN`. -/
def extract_nouns (nlp : String → List Token) (text : Option String) :
    List String :=
  match text with
  | none => []
  | some t =>
    ((nlp (String.mk (t.data.map Char.toLower))).filter fun tok =>
      tok.is_alpha && !tok.is_stop && (tok.pos_ == "NOUN" || tok.pos_ == "PROPN")).map
      (·.lemma_)

/-- The alphabetic tokens of the annotated candidate, as consumed by both
generator expressions inside `filter_adjectives`. -/
def alphaTokens (nlp : String → List Token) (candidate : String) : List Token :=
  (nlp candidate).filter (·.is_alpha)

/-- Lines 42-50: `filter_adjectives(candidates)` — keep, lemmatised and
space-joined, every candidate all of whose alphabetic tokens are tagged
`ADJ` (Python's `all` is true on an empty generator, so a candidate with no
alphabetic tokens passes and contributes the empty join). -/
def filter_adjectives (nlp : String → List Token) (candidates : List String) :
    List String :=
  candidates.foldl
    (fun valid candidate =>
      if (alphaTokens nlp candidate).all (fun tok => tok.pos_ == "ADJ") then
        valid ++ [String.intercalate " " ((alphaTokens nlp candidate).map (·.lemma_))]
      else valid)
    []

/-- The running lists kept for one image in `image_results` (line 63):
free-description tokens, validated adjectives, nouns. -/
structure ImageResult where
  all_tokens : List String
  adjectives : List String
  nouns : List String
  deriving DecidableEq, Repr

/-- The two counters of `adj_stats` for one adjective column (line 67). -/
structure AdjStat where
  cells : Nat
  valid_cells : Nat
  deriving DecidableEq, Repr

/-- The mutable accumulators of the script, lines 63-71: per-image lists,
overall lists, per-column counters and the two overall counters. -/
structure AnalysisState where
  image_results : Fin 6 → ImageResult
  all_tokens : List String
  all_adjectives : List String
  all_nouns : List String
  adj_stats : Fin 6 → AdjStat
  overall_adj_cells : Nat
  overall_adj_valid_cells : Nat

/-- Point update of a `Fin 6`-indexed family, modelling a Python dict write. -/
def upd {α : Type} (f : Fin 6 → α) (i : Fin 6) (x : α) : Fin 6 → α :=
  fun j => if j = i then x else f j

/-- The state before the row loop: empty lists, zero counters
(lines 63-71). -/
def initState : AnalysisState where
  image_results := fun _ => ⟨[], [], []⟩
  all_tokens := []
  all_adjectives := []
  all_nouns := []
  adj_stats := fun _ => ⟨0, 0⟩
  overall_adj_cells := 0
  overall_adj_valid_cells := 0

/-- One survey response restricted to the fields the loop reads: for each
stimulus index `i` (0-based; `Image_{i+1}`), the `Description_{i+1}` and
`Adjectives_{i+1}` cells, `none` meaning NA. -/
structure Row where
  desc : Fin 6 → Option String
  adj : Fin 6 → Option String

/-- The body of the inner loop of lines 75-109 for one `(desc_col, adj_col)`
pair at 0-based index `i`: extend the image's token and noun lists; if the
adjective cell is not NA, count it, extract and validate its candidates,
count it valid when at least one validated adjective resulted, extend the
image's adjective list, and — when `i ≠ 1`, i.e. the image is not the
excluded `Image_2` — update the overall adjective counters and list;
finally, when `i ≠ 1`, extend the overall token and noun lists. -/
def processCell (nlp : String → List Token) (st : AnalysisState) (i : Fin 6)
    (desc adjCell : Option String) : AnalysisState :=
  let tokens := tokenize_description nlp desc
  let nouns := extract_nouns nlp desc
  let st1 : AnalysisState :=
    { st with
      image_results := upd st.image_results i
        { st.image_results i with
          all_tokens := (st.image_results i).all_tokens ++ tokens
          nouns := (st.image_results i).nouns ++ nouns } }
  let st2 : AnalysisState :=
    match adjCell with
    | none => st1
    | some a =>
      let candidate_adjs := extract_adjectives (some a)
      let valid_adjs := filter_adjectives nlp candidate_adjs
      let stA : AnalysisState :=
        { st1 with
          adj_stats := upd st1.adj_stats i
            { cells := (st1.adj_stats i).cells + 1
              valid_cells :=
                (st1.adj_stats i).valid_cells + (if valid_adjs ≠ [] then 1 else 0) }
          image_results := upd st1.image_results i
            { st1.image_results i with
              adjectives := (st1.image_results i).adjectives ++ valid_adjs } }
      if i ≠ 1 then
        { stA with
          overall_adj_cells := stA.overall_adj_cells + 1
          overall_adj_valid_cells :=
            stA.overall_adj_valid_cells + (if valid_adjs ≠ [] then 1 else 0)
          all_adjectives := stA.all_adjectives ++ valid_adjs }
      else stA
  if i ≠ 1 then
    { st2 with
      all_tokens := st2.all_tokens ++ tokens
      all_nouns := st2.all_nouns ++ nouns }
  else st2

/-- One iteration of the outer row loop (line 74): the inner loop over the
six `(Description_i, Adjectives_i)` pairs. -/
def processRow (nlp : String → List Token) (st : AnalysisState) (row : Row) :
    AnalysisState :=
  (List.finRange 6).foldl (fun s i => processCell nlp s i (row.desc i) (row.adj i)) st

/-- The whole row loop, lines 74-109, over the loaded table. -/
def runAnalysis (nlp : String → List Token) (rows : List Row) : AnalysisState :=
  rows.foldl (processRow nlp) initState

/-- A response whose only non-NA cell is a whitespace-only `Adjectives_1`
field. -/
def rowBlank : Row where
  desc := fun _ => none
  adj := fun j => if j = 0 then some " " else none

/-- The key order of `Counter(l)`: a Python dict iterates its keys in
insertion order, so the counter's keys are the distinct elements of `l` in
order of first occurrence. -/
def insertionOrder (l : List String) : List String :=
  l.foldl (fun acc x => if x ∈ acc then acc else acc ++ [x]) []

/-- Insert `x` into a count-descending list, after every element of strictly
larger count: the insertion step of a stable descending sort. -/
def insertDesc (cnt : String → Nat) (x : String) : List String → List String
  | [] => [x]
  | y :: ys => if cnt x < cnt y then y :: insertDesc cnt x ys else x :: y :: ys

/-- Stable insertion sort by descending count, the ordering contract of
CPython's `sorted(items, key=count, reverse=True)` used by
`Counter.most_common`. -/
def isortDesc (cnt : String → Nat) : List String → List String
  | [] => []
  | x :: xs => insertDesc cnt x (isortDesc cnt xs)

/-- `Counter(l).most_common()`: `(item, count)` pairs, counts descending,
ties in first-occurrence (dict insertion) order. -/
def most_common (l : List String) : List (String × Nat) :=
  (isortDesc (fun x => l.count x) (insertionOrder l)).map fun x => (x, l.count x)

/-- `Counter(l).most_common(n)`: the first `n` entries of the ranking. -/
def most_common_n (n : Nat) (l : List String) : List (String × Nat) :=
  (most_common l).take n

/-- `len(Counter(l))`: the number of distinct elements of `l`. -/
def rankedLen (l : List String) : Nat :=
  (insertionOrder l).length

/-- Lines 140-143: the maximum of the three table lengths over the six
images. -/
def imageMax (st : AnalysisState) : Nat :=
  (List.finRange 6).foldl
    (fun m i =>
      max m
        (max (rankedLen ((st.image_results i).all_tokens))
          (max (rankedLen ((st.image_results i).adjectives))
            (rankedLen ((st.image_results i).nouns)))))
    0

/-- Line 144: `max_rows`, the image maximum joined with the three overall
table lengths. -/
def max_rows (st : AnalysisState) : Nat :=
  max (max (max (imageMax st) (rankedLen st.all_tokens)) (rankedLen st.all_adjectives))
    (rankedLen st.all_nouns)

/-- A word column of the export: the ranked items, right-padded with `""` to
`m` entries (lines 152, 154, 156). -/
def wordCol (m : Nat) (l : List String) : List String :=
  let mc := most_common_n m l
  mc.map Prod.fst ++ List.replicate (m - mc.length) ""

/-- A frequency column of the export: the ranked counts (decimal strings in
the emitted CSV), right-padded with `""` to `m` entries (lines 153, 155,
157). -/
def freqCol (m : Nat) (l : List String) : List String :=
  let mc := most_common_n m l
  mc.map (fun p => toString p.2) ++ List.replicate (m - mc.length) ""

/-- The six interleaved columns written for one image or for the overall
roll-up (lines 151-158 and 160-167). -/
def imageCols (m : Nat) (name : String) (r : ImageResult) : List (String × List String) :=
  [(name ++ "_Free_Word", wordCol m r.all_tokens),
   (name ++ "_Free_Freq", freqCol m r.all_tokens),
   (name ++ "_Adj_Word", wordCol m r.adjectives),
   (name ++ "_Adj_Freq", freqCol m r.adjectives),
   (name ++ "_Noun_Word", wordCol m r.nouns),
   (name ++ "_Noun_Freq", freqCol m r.nouns)]

/-- Lines 146-167: `csv_data`, the exported flat table as an ordered list of
`(column name, column)` pairs — six columns per image, then the six overall
columns. -/
def csv_data (st : AnalysisState) : List (String × List String) :=
  ((List.finRange 6).map fun i =>
      imageCols (max_rows st) ("Image_" ++ toString (i.val + 1)) (st.image_results i)).flatten
  ++ imageCols (max_rows st) "Overall" ⟨st.all_tokens, st.all_adjectives, st.all_nouns⟩

/-- A concrete annotator used on closed inputs: no token for any text. -/
def nlp0 : String → List Token := fun _ => []

/-- A concrete annotator with the spaCy judgements the spec's examples
assume: `"123"` is one non-alphabetic token, `"very"` an adverb,
`"beautiful"` an adjective. -/
def nlpDemo : String → List Token := fun s =>
  if s = "123" then [⟨"123", "NUM", false, false⟩]
  else if s = "very beautiful" then
    [⟨"very", "ADV", true, false⟩, ⟨"beautiful", "ADJ", true, false⟩]
  else if s = "beautiful" then [⟨"beautiful", "ADJ", true, false⟩]
  else []

/-- The Splitter as the spec words it: split the string at every comma,
semicolon or whitespace character and keep the non-empty pieces — the
ordered maximal separator-free substrings, duplicates and order
preserved. -/
def splitter_spec (s : String) : List String :=
  ((s.data.splitOnP isSep).filter (fun g => g ≠ [])).map String.mk

/-- All whitespace characters of the list are plain spaces. -/
def SpacesOK (l : List Char) : Prop := ∀ c ∈ l, isPySpace c = true → c = ' '

/-- No two adjacent characters of the list are both whitespace. -/
def NoTwoSpaces (l : List Char) : Prop :=
  List.Chain' (fun a b => isPySpace a = false ∨ isPySpace b = false) l

/-- The head of the list, when present, is not whitespace. -/
def HeadOK (l : List Char) : Prop := ∀ c, l.head? = some c → isPySpace c = false

/-- The last element of the list, when present, is not whitespace. -/
def LastOK (l : List Char) : Prop := ∀ c, l.getLast? = some c → isPySpace c = false

/-- The validated adjectives one adjective cell contributes: none if the
cell is NA, otherwise the filtered candidates. -/
def cellAdjs (nlp : String → List Token) (a : Option String) : List String :=
  match a with
  | none => []
  | some x => filter_adjectives nlp (extract_adjectives (some x))

/-- Whether the adjective cell counts as processed: `1` iff it is not NA. -/
def cellPresent (a : Option String) : Nat :=
  match a with
  | none => 0
  | some _ => 1

/-- The sum of the per-stimulus cells counters over the five stimuli
included in the overall statistics (all but the excluded index `1`,
i.e. `Image_2`). -/
def includedCells (st : AnalysisState) : Nat :=
  (((List.finRange 6).filter fun j => decide (j ≠ 1)).map
    fun j => (st.adj_stats j).cells).sum

/-- The counter invariant of the adjective statistics: every valid-cells
counter is bounded by its cells counter, and the overall cells counter is
the sum over the included stimuli. -/
def StatsInv (st : AnalysisState) : Prop :=
  (∀ j : Fin 6, (st.adj_stats j).valid_cells ≤ (st.adj_stats j).cells)
  ∧ st.overall_adj_valid_cells ≤ st.overall_adj_cells
  ∧ st.overall_adj_cells = includedCells st

/-- Two rows agree outside the excluded stimulus: all `Description` and
`Adjectives` cells are equal except possibly those of index `1`
(`Image_2`). -/
def AgreeRow (r r' : Row) : Prop :=
  ∀ i : Fin 6, i ≠ 1 → r.desc i = r'.desc i ∧ r.adj i = r'.adj i

/-- Two states agree on everything the overall aggregates and the included
stimuli can see. -/
def GlobalAgree (s s' : AnalysisState) : Prop :=
  s.all_tokens = s'.all_tokens
  ∧ s.all_adjectives = s'.all_adjectives
  ∧ s.all_nouns = s'.all_nouns
  ∧ s.overall_adj_cells = s'.overall_adj_cells
  ∧ s.overall_adj_valid_cells = s'.overall_adj_valid_cells
  ∧ ∀ j : Fin 6, j ≠ 1 →
      s.image_results j = s'.image_results j ∧ s.adj_stats j = s'.adj_stats j

/-- A row whose only content is a description for the excluded stimulus. -/
def rowA : Row where
  desc := fun j => if j = 1 then some "alpha" else none
  adj := fun _ => none

/-- As `rowA` but with a different excluded-stimulus description. -/
def rowB : Row where
  desc := fun j => if j = 1 then some "beta" else none
  adj := fun _ => none

/-- Claim C8: a missing (NA) field makes the description tokenizer, the noun
extractor and the adjective splitter all return the empty sequence (the
functions are total, so no exception arises). -/
theorem C8_na_fields_empty (nlp : String → List Token) :
    tokenize_description nlp none = [] ∧ extract_nouns nlp none = [] ∧
      extract_adjectives none = [] :=
  ⟨rfl, rfl, rfl⟩

/-- Witness for C8 at the concrete annotator `nlp0`. -/
theorem C8_na_fields_empty_witness :
    tokenize_description nlp0 none = [] ∧ extract_nouns nlp0 none = [] ∧
      extract_adjectives none = [] :=
  C8_na_fields_empty nlp0

/-- Claim C1 fails on the code: for the candidate `"123"`, annotated as a
single non-alphabetic token, `filter_adjectives` does not reject the
candidate — Python's `all` is vacuously true on the empty generator of
alphabetic tokens, so the candidate is accepted and contributes the empty
canonical string `""` (which then feeds the adjective multiset and the
valid-cell counters). -/
theorem C1_zero_alpha_accepted :
    alphaTokens nlpDemo "123" = [] ∧ filter_adjectives nlpDemo ["123"] = [""] := by
  constructor <;> decide

/-- Claim C5: a candidate with at least one alphabetic token is accepted
(produces an output) iff every alphabetic token is tagged `ADJ`, and on
acceptance the single emitted canonical string is the space-joined sequence
of the alphabetic tokens' lemmas; hence one non-`ADJ` alphabetic token
invalidates the whole candidate. -/
theorem C5_validator (nlp : String → List Token) (c : String)
    (h : alphaTokens nlp c ≠ []) :
    (filter_adjectives nlp [c] ≠ [] ↔ ∀ tok ∈ alphaTokens nlp c, tok.pos_ = "ADJ")
    ∧ (filter_adjectives nlp [c] ≠ [] →
        filter_adjectives nlp [c] =
          [String.intercalate " " ((alphaTokens nlp c).map (·.lemma_))]) := by
  clear h
  simp only [filter_adjectives, List.foldl_cons, List.foldl_nil, List.nil_append]
  by_cases hall : (alphaTokens nlp c).all (fun tok => tok.pos_ == "ADJ") = true
  · rw [if_pos hall]
    refine ⟨⟨fun _ => ?_, fun _ => by simp⟩, fun _ => rfl⟩
    intro tok htok
    have := List.all_eq_true.mp hall tok htok
    simpa using this
  · rw [if_neg hall]
    refine ⟨⟨fun hne => absurd rfl hne, fun hadj => ?_⟩, fun hne => absurd rfl hne⟩
    exfalso
    apply hall
    rw [List.all_eq_true]
    intro tok htok
    simpa using hadj tok htok

/-- Witness for C5 at the spec's example: `"very beautiful"` with `"very"`
tagged `ADV` is rejected as a whole. -/
theorem C5_validator_witness : filter_adjectives nlpDemo ["very beautiful"] = [] := by
  have h := C5_validator nlpDemo "very beautiful" (by decide)
  by_contra hne
  have hadj := h.1.mp hne
  have := hadj ⟨"very", "ADV", true, false⟩ (by decide)
  simp at this

/-- The hand-rolled single-separator split agrees with the library one. -/
theorem splitOnSeps_eq (l : List Char) : splitOnSeps l = l.splitOnP isSep := by
  induction l with
  | nil => simp [splitOnSeps, List.splitOnP_nil]
  | cons c rest ih =>
    rw [List.splitOnP_cons]
    by_cases h : isSep c = true
    · simp [splitOnSeps, h, ih]
    · simp only [splitOnSeps, h, Bool.false_eq_true, if_false, ih]
      cases hr : rest.splitOnP isSep with
      | nil => exact absurd hr (List.splitOnP_ne_nil _ _)
      | cons g gs => simp [List.modifyHead]

/-- Every piece produced by the split is free of separator characters. -/
theorem splitOnSeps_no_sep :
    ∀ (l : List Char), ∀ g ∈ splitOnSeps l, ∀ c ∈ g, isSep c = false := by
  intro l
  induction l with
  | nil =>
    intro g hg c hc
    simp [splitOnSeps] at hg
    subst hg
    simp at hc
  | cons x rest ih =>
    intro g hg c hc
    by_cases hx : isSep x = true
    · simp only [splitOnSeps, hx, if_true, List.mem_cons] at hg
      rcases hg with hg | hg
      · subst hg; simp at hc
      · exact ih g hg c hc
    · simp only [splitOnSeps, hx, Bool.false_eq_true, if_false] at hg
      cases hr : splitOnSeps rest with
      | nil =>
        rw [hr] at hg
        simp at hg
        subst hg
        simp at hc
        subst hc
        simpa using hx
      | cons g0 gs =>
        rw [hr] at hg
        simp only [List.mem_cons] at hg
        rcases hg with hg | hg
        · subst hg
          rcases List.mem_cons.mp hc with hcx | hcg
          · subst hcx; simpa using hx
          · exact ih g0 (by rw [hr]; exact List.mem_cons_self _ _) c hcg
        · exact ih g (by rw [hr]; exact List.mem_cons_of_mem _ hg) c hc

/-- `dropWhile` is the identity on a list none of whose elements satisfy the
predicate. -/
theorem dropWhile_eq_self_of_none {p : Char → Bool} :
    ∀ (l : List Char), (∀ c ∈ l, p c = false) → l.dropWhile p = l := by
  intro l h
  cases l with
  | nil => rfl
  | cons c t => simp [List.dropWhile_cons, h c (List.mem_cons_self _ _)]

/-- Stripping a whitespace-free list changes nothing. -/
theorem pyStrip_eq_self (l : List Char) (h : ∀ c ∈ l, isPySpace c = false) :
    pyStrip l = l := by
  unfold pyStrip
  rw [dropWhile_eq_self_of_none l h,
    dropWhile_eq_self_of_none l.reverse (fun c hc => h c (List.mem_reverse.mp hc)),
    List.reverse_reverse]

/-- On separator-free pieces the strip-and-keep-nonempty comprehension is
plain nonempty filtering. -/
theorem filterMap_strip_eq (gs : List (List Char))
    (h : ∀ g ∈ gs, ∀ c ∈ g, isSep c = false) :
    (gs.filterMap fun item =>
        let t := pyStrip item
        if t = [] then none else some (String.mk t))
      = (gs.filter (fun g => g ≠ [])).map String.mk := by
  induction gs with
  | nil => rfl
  | cons g rest ih =>
    have hg : ∀ c ∈ g, isPySpace c = false := by
      intro c hc
      have hs := h g (List.mem_cons_self _ _) c hc
      by_contra hsp
      simp only [Bool.not_eq_false] at hsp
      simp [isSep, hsp] at hs
    have hrest := ih fun g' hg' => h g' (List.mem_cons_of_mem _ hg')
    simp only [List.filterMap_cons, List.filter_cons, pyStrip_eq_self g hg]
    by_cases hne : g = []
    · subst hne
      simpa using hrest
    · simp only [hne, if_false, hrest]
      simp [hne]

/-- Claim C6: on an already-normalised adjective-field string the splitter
returns exactly the ordered non-empty substrings between runs of comma,
semicolon or whitespace characters (duplicates and order preserved); the
spec's example splits as stated, and the empty string yields the empty
sequence. -/
theorem C6_splitter :
    (∀ s : String, pyNormalize s = s → extract_adjectives (some s) = splitter_spec s)
    ∧ extract_adjectives (some "bright, colorful;  vivid") =
        ["bright", "colorful", "vivid"]
    ∧ extract_adjectives (some "") = [] := by
  refine ⟨fun s h => ?_, by decide, by decide⟩
  show (splitOnSeps (pyNormalize s).data).filterMap _ = _
  rw [h, filterMap_strip_eq _ (splitOnSeps_no_sep s.data), splitOnSeps_eq]
  rfl

/-- Witness for C6 at a concrete normalised input. -/
theorem C6_splitter_witness :
    extract_adjectives (some "bright, colorful; vivid") =
      splitter_spec "bright, colorful; vivid" :=
  C6_splitter.1 "bright, colorful; vivid" (by decide)

/-- Basic-latin lowercasing is idempotent. -/
theorem toLower_idem (c : Char) : c.toLower.toLower = c.toLower := by
  by_cases h : c.toNat ≥ 65 ∧ c.toNat ≤ 90
  · have hc : c.toLower = Char.ofNat (c.toNat + 32) := by
      simp only [Char.toLower]
      rw [if_pos h]
    rw [hc]
    obtain ⟨h1, h2⟩ := h
    generalize c.toNat = n at h1 h2
    interval_cases n <;> decide
  · have hc : c.toLower = c := by
      simp only [Char.toLower]
      rw [if_neg h]
    rw [hc, hc]

/-- Every character of the collapsed list is a character of the input or a
plain space. -/
theorem mem_collapseWS : ∀ (l : List Char), ∀ c ∈ collapseWS l, c ∈ l ∨ c = ' '
  | [] => by simp [collapseWS]
  | [d] => by
    intro c hc
    by_cases h : isPySpace d = true
    · simp only [collapseWS, h, if_true, List.mem_singleton] at hc
      right; exact hc
    · simp only [collapseWS, h] at hc
      simp only [Bool.false_eq_true, if_false, List.mem_singleton] at hc
      left; simp [hc]
  | d :: e :: rest => by
    intro c hc
    by_cases h : isPySpace d = true
    · by_cases h2 : isPySpace e = true
      · simp only [collapseWS, h, h2, if_true] at hc
        rcases mem_collapseWS (e :: rest) c hc with h3 | h3
        · left; exact List.mem_cons_of_mem _ h3
        · right; exact h3
      · simp only [collapseWS, h, h2, if_true, if_false] at hc
        rcases List.mem_cons.mp hc with h3 | h3
        · right; exact h3
        · rcases mem_collapseWS (e :: rest) c h3 with h4 | h4
          · left; exact List.mem_cons_of_mem _ h4
          · right; exact h4
    · simp only [collapseWS, h, if_false] at hc
      rcases List.mem_cons.mp hc with h3 | h3
      · left; rw [h3]; exact List.mem_cons_self _ _
      · rcases mem_collapseWS (e :: rest) c h3 with h4 | h4
        · left; exact List.mem_cons_of_mem _ h4
        · right; exact h4

/-- Collapsing a non-empty list gives a non-empty list. -/
theorem collapseWS_ne_nil : ∀ (d : Char) (rest : List Char), collapseWS (d :: rest) ≠ []
  | d, [] => by by_cases h : isPySpace d = true <;> simp [collapseWS, h]
  | d, e :: rest => by
    by_cases h : isPySpace d = true
    · by_cases h2 : isPySpace e = true
      · simp only [collapseWS, h, h2, if_true]
        exact collapseWS_ne_nil e rest
      · simp [collapseWS, h, h2]
    · simp [collapseWS, h]

/-- Collapsing keeps a non-space head in place. -/
theorem head_collapseWS (d : Char) (rest : List Char) (h : isPySpace d = false) :
    ∃ t, collapseWS (d :: rest) = d :: t := by
  cases rest with
  | nil => exact ⟨[], by simp [collapseWS, h]⟩
  | cons e r => exact ⟨collapseWS (e :: r), by simp [collapseWS, h]⟩

/-- The collapsed list only contains plain spaces as whitespace. -/
theorem collapseWS_spacesOK : ∀ l, SpacesOK (collapseWS l)
  | [] => by intro c hc; simp [collapseWS] at hc
  | [d] => by
    intro c hc hsp
    by_cases h : isPySpace d = true
    · simp only [collapseWS, h, if_true, List.mem_singleton] at hc
      exact hc
    · simp only [collapseWS, h] at hc
      simp only [Bool.false_eq_true, if_false, List.mem_singleton] at hc
      rw [hc] at hsp
      exact absurd hsp h
  | d :: e :: rest => by
    intro c hc hsp
    by_cases h : isPySpace d = true
    · by_cases h2 : isPySpace e = true
      · simp only [collapseWS, h, h2, if_true] at hc
        exact collapseWS_spacesOK (e :: rest) c hc hsp
      · simp only [collapseWS, h, h2, if_true, if_false] at hc
        rcases List.mem_cons.mp hc with h3 | h3
        · exact h3
        · exact collapseWS_spacesOK (e :: rest) c h3 hsp
    · simp only [collapseWS, h, if_false] at hc
      rcases List.mem_cons.mp hc with h3 | h3
      · rw [h3] at hsp; exact absurd hsp h
      · exact collapseWS_spacesOK (e :: rest) c h3 hsp

/-- The collapsed list never has two adjacent whitespace characters. -/
theorem collapseWS_noTwo : ∀ l, NoTwoSpaces (collapseWS l)
  | [] => by simp [collapseWS, NoTwoSpaces]
  | [d] => by by_cases h : isPySpace d = true <;> simp [collapseWS, h, NoTwoSpaces]
  | d :: e :: rest => by
    by_cases h : isPySpace d = true
    · by_cases h2 : isPySpace e = true
      · simpa only [NoTwoSpaces, collapseWS, h, h2, if_true] using
          collapseWS_noTwo (e :: rest)
      · have h2f : isPySpace e = false := by simpa using h2
        rw [NoTwoSpaces,
          show collapseWS (d :: e :: rest) = ' ' :: collapseWS (e :: rest) from by
            simp [collapseWS, h, h2]]
        obtain ⟨t, ht⟩ := head_collapseWS e rest h2f
        rw [ht]
        refine List.Chain'.cons (Or.inr h2f) ?_
        rw [← ht]
        exact collapseWS_noTwo (e :: rest)
    · have hf : isPySpace d = false := by simpa using h
      rw [NoTwoSpaces,
        show collapseWS (d :: e :: rest) = d :: collapseWS (e :: rest) from by
          simp [collapseWS, h]]
      rcases hX : collapseWS (e :: rest) with _ | ⟨x, t⟩
      · exact absurd hX (collapseWS_ne_nil e rest)
      · refine List.Chain'.cons (Or.inl hf) ?_
        rw [← hX]
        exact collapseWS_noTwo (e :: rest)

/-- Collapsing is the identity on lists already in collapsed form. -/
theorem collapseWS_fixed : ∀ l, SpacesOK l → NoTwoSpaces l → collapseWS l = l
  | [], _, _ => rfl
  | [d], hs, _ => by
    by_cases h : isPySpace d = true
    · have := hs d (List.mem_singleton.mpr rfl) h
      simp [collapseWS, h, this]
    · simp [collapseWS, h]
  | d :: e :: rest, hs, hn => by
    have htail : SpacesOK (e :: rest) := fun c hc => hs c (List.mem_cons_of_mem _ hc)
    have hntail : NoTwoSpaces (e :: rest) := (List.chain'_cons.mp hn).2
    by_cases h : isPySpace d = true
    · have hd : d = ' ' := hs d (List.mem_cons_self _ _) h
      have h2 : isPySpace e = false := by
        rcases (List.chain'_cons.mp hn).1 with h' | h'
        · rw [h] at h'; cases h'
        · exact h'
      rw [show collapseWS (d :: e :: rest) = ' ' :: collapseWS (e :: rest) from by
          simp [collapseWS, h, h2]]
      rw [collapseWS_fixed (e :: rest) htail hntail, hd]
    · rw [show collapseWS (d :: e :: rest) = d :: collapseWS (e :: rest) from by
          simp [collapseWS, h]]
      rw [collapseWS_fixed (e :: rest) htail hntail]

/-- Collapsing keeps a non-space last element non-space. -/
theorem collapseWS_lastOK : ∀ l, LastOK l → LastOK (collapseWS l)
  | [] => fun h => by simpa [collapseWS] using h
  | [d] => by
    intro h c hc
    by_cases hd : isPySpace d = true
    · have := h d (by simp)
      rw [hd] at this
      cases this
    · simp only [collapseWS, hd] at hc
      simp only [Bool.false_eq_true, if_false, List.getLast?_singleton,
        Option.some.injEq] at hc
      rw [← hc]
      simpa using hd
  | d :: e :: rest => by
    intro h c hc
    have htail : LastOK (e :: rest) := fun x hx =>
      h x (by rw [List.getLast?_cons_cons]; exact hx)
    by_cases hd : isPySpace d = true
    · by_cases h2 : isPySpace e = true
      · rw [show collapseWS (d :: e :: rest) = collapseWS (e :: rest) from by
            simp [collapseWS, hd, h2]] at hc
        exact collapseWS_lastOK (e :: rest) htail c hc
      · rw [show collapseWS (d :: e :: rest) = ' ' :: collapseWS (e :: rest) from by
            simp [collapseWS, hd, h2]] at hc
        rcases hX : collapseWS (e :: rest) with _ | ⟨x, t⟩
        · exact absurd hX (collapseWS_ne_nil e rest)
        · rw [hX, List.getLast?_cons_cons] at hc
          exact collapseWS_lastOK (e :: rest) htail c (by rw [hX]; exact hc)
    · rw [show collapseWS (d :: e :: rest) = d :: collapseWS (e :: rest) from by
          simp [collapseWS, hd]] at hc
      rcases hX : collapseWS (e :: rest) with _ | ⟨x, t⟩
      · exact absurd hX (collapseWS_ne_nil e rest)
      · rw [hX, List.getLast?_cons_cons] at hc
        exact collapseWS_lastOK (e :: rest) htail c (by rw [hX]; exact hc)

/-- After dropping leading whitespace the head is not whitespace. -/
theorem headOK_dropWhile (l : List Char) : HeadOK (l.dropWhile isPySpace) := by
  induction l with
  | nil => intro c hc; simp at hc
  | cons x t ih =>
    intro c hc
    by_cases hx : isPySpace x = true
    · rw [List.dropWhile_cons, if_pos hx] at hc
      exact ih c hc
    · rw [List.dropWhile_cons, if_neg hx] at hc
      simp only [List.head?_cons, Option.some.injEq] at hc
      rw [← hc]
      simpa using hx

/-- Dropping a prefix does not change a surviving last element. -/
theorem getLast?_dropWhile_of_ne_nil (p : Char → Bool) :
    ∀ (l : List Char), l.dropWhile p ≠ [] → (l.dropWhile p).getLast? = l.getLast?
  | [] => fun h => absurd rfl h
  | x :: t => by
    intro h
    by_cases hx : p x = true
    · rw [List.dropWhile_cons, if_pos hx] at h ⊢
      have ht : t ≠ [] := by
        intro he
        rw [he] at h
        exact h rfl
      rw [getLast?_dropWhile_of_ne_nil p t h]
      cases t with
      | nil => exact absurd rfl ht
      | cons y u => rw [List.getLast?_cons_cons]
    · rw [List.dropWhile_cons, if_neg hx]

/-- The head of a stripped list is not whitespace. -/
theorem pyStrip_headOK (l : List Char) : HeadOK (pyStrip l) := by
  intro c hc
  unfold pyStrip at hc
  rw [List.head?_reverse] at hc
  have hne : (l.dropWhile isPySpace).reverse.dropWhile isPySpace ≠ [] := by
    intro he
    rw [he] at hc
    simp at hc
  rw [getLast?_dropWhile_of_ne_nil _ _ hne, List.getLast?_reverse] at hc
  exact headOK_dropWhile l c hc

/-- The last element of a stripped list is not whitespace. -/
theorem pyStrip_lastOK (l : List Char) : LastOK (pyStrip l) := by
  intro c hc
  unfold pyStrip at hc
  rw [List.getLast?_reverse] at hc
  exact headOK_dropWhile _ c hc

/-- Dropping leading whitespace from a list with a non-space head changes
nothing. -/
theorem dropWhile_eq_self_of_headOK (l : List Char) (h : HeadOK l) :
    l.dropWhile isPySpace = l := by
  cases l with
  | nil => rfl
  | cons x t =>
    have := h x rfl
    simp [List.dropWhile_cons, this]

/-- Stripping is the identity when both ends are already non-space. -/
theorem pyStrip_fixed (l : List Char) (h1 : HeadOK l) (h2 : LastOK l) :
    pyStrip l = l := by
  have hrev : HeadOK l.reverse := fun c hc => h2 c (by rwa [List.head?_reverse] at hc)
  unfold pyStrip
  rw [dropWhile_eq_self_of_headOK l h1, dropWhile_eq_self_of_headOK l.reverse hrev,
    List.reverse_reverse]

/-- Dropped lists only contain elements of the original list. -/
theorem mem_dropWhile_sub {p : Char → Bool} :
    ∀ (l : List Char), ∀ c ∈ l.dropWhile p, c ∈ l
  | [] => by simp
  | x :: t => by
    intro c hc
    by_cases hx : p x = true
    · rw [List.dropWhile_cons, if_pos hx] at hc
      exact List.mem_cons_of_mem _ (mem_dropWhile_sub t c hc)
    · rw [List.dropWhile_cons, if_neg hx] at hc
      exact hc

/-- Characters of the stripped list are characters of the input. -/
theorem mem_pyStrip (l : List Char) (c : Char) (hc : c ∈ pyStrip l) : c ∈ l := by
  unfold pyStrip at hc
  rw [List.mem_reverse] at hc
  have h1 := mem_dropWhile_sub _ c hc
  rw [List.mem_reverse] at h1
  exact mem_dropWhile_sub _ c h1

/-- Mapping a function that fixes every element of the list is the
identity. -/
theorem map_id_of_mem {f : Char → Char} :
    ∀ (l : List Char), (∀ c ∈ l, f c = c) → l.map f = l
  | [], _ => rfl
  | c :: t, h => by
    rw [List.map_cons, h c (List.mem_cons_self _ _),
      map_id_of_mem t fun x hx => h x (List.mem_cons_of_mem _ hx)]

/-- The normalisation pipeline is the identity on the result of normalising
any lowercase-fixed character list. -/
theorem normalize_fixed (m : List Char) (hm : ∀ c ∈ m, Char.toLower c = c) :
    pyNormalize (String.mk (collapseWS (pyStrip m)))
      = String.mk (collapseWS (pyStrip m)) := by
  have hmap : (collapseWS (pyStrip m)).map Char.toLower = collapseWS (pyStrip m) := by
    apply map_id_of_mem
    intro c hc
    rcases mem_collapseWS (pyStrip m) c hc with h1 | h1
    · exact hm c (mem_pyStrip m c h1)
    · rw [h1]; decide
  have hHead : HeadOK (collapseWS (pyStrip m)) := by
    rcases hps : pyStrip m with _ | ⟨c0, t0⟩
    · intro c hc
      simp [collapseWS] at hc
    · have hc0 : isPySpace c0 = false := pyStrip_headOK m c0 (by rw [hps]; rfl)
      obtain ⟨t, ht⟩ := head_collapseWS c0 t0 hc0
      rw [ht]
      intro c hc
      simp only [List.head?_cons, Option.some.injEq] at hc
      rw [← hc]
      exact hc0
  have hLast : LastOK (collapseWS (pyStrip m)) := collapseWS_lastOK _ (pyStrip_lastOK m)
  show String.mk (collapseWS (pyStrip ((collapseWS (pyStrip m)).map Char.toLower)))
      = String.mk (collapseWS (pyStrip m))
  rw [hmap, pyStrip_fixed _ hHead hLast,
    collapseWS_fixed _ (collapseWS_spacesOK _) (collapseWS_noTwo _)]

/-- Claim C9: the text normaliser embedded in `extract_adjectives`
(lowercase, strip, collapse whitespace runs) is idempotent. -/
theorem C9_normalizer_idem (s : String) :
    pyNormalize (pyNormalize s) = pyNormalize s :=
  normalize_fixed (s.data.map Char.toLower) fun c hc => by
    rcases List.mem_map.mp hc with ⟨a, _, ha⟩
    rw [← ha]
    exact toLower_idem a

/-- Witness for C9 at a concrete string. -/
theorem C9_normalizer_idem_witness :
    pyNormalize (pyNormalize "Bright  RED  house ") = pyNormalize "Bright  RED  house " :=
  C9_normalizer_idem "Bright  RED  house "

/-- Inserting an element moves it past exactly the strictly-larger counts,
so each count class keeps its order and gains `x` at the front of its own
class. -/
theorem insertDesc_filter (cnt : String → Nat) (x : String) (k : Nat) :
    ∀ l, (insertDesc cnt x l).filter (fun y => cnt y == k)
      = if cnt x == k then x :: l.filter (fun y => cnt y == k)
        else l.filter (fun y => cnt y == k)
  | [] => by
    by_cases h : cnt x == k <;> simp [insertDesc, List.filter, h]
  | y :: ys => by
    by_cases hlt : cnt x < cnt y
    · rw [show insertDesc cnt x (y :: ys) = y :: insertDesc cnt x ys from by
          simp [insertDesc, hlt]]
      by_cases hx : cnt x == k
      · have hy : (cnt y == k) = false := by
          have hk : cnt x = k := by simpa using hx
          have : cnt y ≠ k := by omega
          simpa using this
        simp only [List.filter_cons, hy, Bool.false_eq_true, if_false]
        rw [insertDesc_filter cnt x k ys]
      · simp only [List.filter_cons]
        rw [insertDesc_filter cnt x k ys]
        simp [hx]
    · rw [show insertDesc cnt x (y :: ys) = x :: y :: ys from by
          simp [insertDesc, hlt]]
      by_cases hx : cnt x == k <;> simp [List.filter_cons, hx]

/-- The stable descending sort preserves each count class in input order. -/
theorem isortDesc_filter (cnt : String → Nat) (k : Nat) :
    ∀ l, (isortDesc cnt l).filter (fun y => cnt y == k)
      = l.filter (fun y => cnt y == k)
  | [] => rfl
  | x :: xs => by
    show (insertDesc cnt x (isortDesc cnt xs)).filter _ = _
    rw [insertDesc_filter cnt x k (isortDesc cnt xs), isortDesc_filter cnt k xs]
    by_cases hx : cnt x == k <;> simp [List.filter_cons, hx]

/-- The head of an insertion is the inserted element or the old head. -/
theorem head?_insertDesc (cnt : String → Nat) (x : String) :
    ∀ l b, (insertDesc cnt x l).head? = some b → b = x ∨ l.head? = some b := by
  intro l b hb
  cases l with
  | nil =>
    simp [insertDesc] at hb
    left; exact hb.symm
  | cons y ys =>
    by_cases hlt : cnt x < cnt y
    · rw [show insertDesc cnt x (y :: ys) = y :: insertDesc cnt x ys from by
          simp [insertDesc, hlt]] at hb
      right; exact hb
    · rw [show insertDesc cnt x (y :: ys) = x :: y :: ys from by
          simp [insertDesc, hlt]] at hb
      left
      simp only [List.head?_cons, Option.some.injEq] at hb
      exact hb.symm

/-- Insertion keeps the list sorted by non-increasing count. -/
theorem chain_insertDesc (cnt : String → Nat) (x : String) :
    ∀ l, List.Chain' (fun a b => cnt b ≤ cnt a) l →
      List.Chain' (fun a b => cnt b ≤ cnt a) (insertDesc cnt x l)
  | [], _ => by simp [insertDesc]
  | y :: ys, h => by
    by_cases hlt : cnt x < cnt y
    · rw [show insertDesc cnt x (y :: ys) = y :: insertDesc cnt x ys from by
          simp [insertDesc, hlt]]
      rw [List.chain'_cons']
      refine ⟨?_, chain_insertDesc cnt x ys (List.chain'_cons'.mp h).2⟩
      intro b hb
      rcases head?_insertDesc cnt x ys b hb with hbx | hby
      · rw [hbx]; exact Nat.le_of_lt hlt
      · exact (List.chain'_cons'.mp h).1 b hby
    · rw [show insertDesc cnt x (y :: ys) = x :: y :: ys from by
          simp [insertDesc, hlt]]
      exact List.Chain'.cons (Nat.le_of_not_lt hlt) h

/-- The sort output is sorted by non-increasing count. -/
theorem chain_isortDesc (cnt : String → Nat) :
    ∀ l, List.Chain' (fun a b => cnt b ≤ cnt a) (isortDesc cnt l)
  | [] => List.chain'_nil
  | x :: xs => chain_insertDesc cnt x (isortDesc cnt xs) (chain_isortDesc cnt xs)

/-- The ranked keys are the sorted first-occurrence keys. -/
theorem most_common_keys (l : List String) :
    (most_common l).map Prod.fst = isortDesc (fun x => l.count x) (insertionOrder l) := by
  unfold most_common
  rw [List.map_map]
  exact List.map_id _

/-- Claim C3: `most_common` lists `(item, count)` pairs with counts
non-increasing, every pair carries the item's true count, items of equal
count keep their first-occurrence order, and the spec's
`{a:3, b:3, c:1}` example ranks `a`, `b`, `c`. -/
theorem C3_ranking (l : List String) :
    List.Chain' (fun p q : String × Nat => q.2 ≤ p.2) (most_common l)
    ∧ (∀ p ∈ most_common l, p.2 = l.count p.1)
    ∧ (∀ k : Nat, ((most_common l).map Prod.fst).filter (fun x => l.count x == k)
        = (insertionOrder l).filter (fun x => l.count x == k))
    ∧ most_common ["a", "a", "a", "b", "b", "b", "c"] =
        [("a", 3), ("b", 3), ("c", 1)] := by
  refine ⟨?_, ?_, ?_, by decide⟩
  · unfold most_common
    rw [List.chain'_map]
    exact chain_isortDesc _ _
  · intro p hp
    unfold most_common at hp
    rcases List.mem_map.mp hp with ⟨x, _, hx⟩
    rw [← hx]
  · intro k
    rw [most_common_keys, isortDesc_filter]

/-- Witness for C3: the count-2 class of a concrete stream keeps its
first-occurrence order in the ranking. -/
theorem C3_ranking_witness :
    ((most_common ["b", "a", "b", "a", "c"]).map Prod.fst).filter
        (fun x => ["b", "a", "b", "a", "c"].count x == 2)
      = (insertionOrder ["b", "a", "b", "a", "c"]).filter
        (fun x => ["b", "a", "b", "a", "c"].count x == 2) :=
  (C3_ranking ["b", "a", "b", "a", "c"]).2.2.1 2

/-- How `processCell` changes `all_tokens`. -/
theorem pc_all_tokens (nlp : String → List Token) (st : AnalysisState) (i : Fin 6)
    (d a : Option String) :
    (processCell nlp st i d a).all_tokens =
      st.all_tokens ++ (if i = 1 then [] else tokenize_description nlp d) := by
  by_cases hi : i = 1 <;> cases a <;> simp [processCell, hi]

/-- How `processCell` changes `all_nouns`. -/
theorem pc_all_nouns (nlp : String → List Token) (st : AnalysisState) (i : Fin 6)
    (d a : Option String) :
    (processCell nlp st i d a).all_nouns =
      st.all_nouns ++ (if i = 1 then [] else extract_nouns nlp d) := by
  by_cases hi : i = 1 <;> cases a <;> simp [processCell, hi]

/-- How `processCell` changes `all_adjectives`. -/
theorem pc_all_adjectives (nlp : String → List Token) (st : AnalysisState) (i : Fin 6)
    (d a : Option String) :
    (processCell nlp st i d a).all_adjectives =
      st.all_adjectives ++ (if i = 1 then [] else cellAdjs nlp a) := by
  by_cases hi : i = 1 <;> cases a <;> simp [processCell, cellAdjs, hi]

/-- How `processCell` changes `overall_adj_cells`. -/
theorem pc_overall_cells (nlp : String → List Token) (st : AnalysisState) (i : Fin 6)
    (d a : Option String) :
    (processCell nlp st i d a).overall_adj_cells =
      st.overall_adj_cells + (if i = 1 then 0 else cellPresent a) := by
  by_cases hi : i = 1 <;> cases a <;> simp [processCell, cellPresent, hi]

/-- How `processCell` changes `overall_adj_valid_cells`. -/
theorem pc_overall_valid (nlp : String → List Token) (st : AnalysisState) (i : Fin 6)
    (d a : Option String) :
    (processCell nlp st i d a).overall_adj_valid_cells =
      st.overall_adj_valid_cells +
        (if i = 1 then 0 else if cellAdjs nlp a ≠ [] then 1 else 0) := by
  by_cases hi : i = 1 <;> cases a <;> simp [processCell, cellAdjs, hi]

/-- How `processCell` changes `adj_stats`. -/
theorem pc_adj_stats (nlp : String → List Token) (st : AnalysisState) (i : Fin 6)
    (d a : Option String) (j : Fin 6) :
    (processCell nlp st i d a).adj_stats j =
      if j = i then
        { cells := (st.adj_stats i).cells + cellPresent a
          valid_cells :=
            (st.adj_stats i).valid_cells + (if cellAdjs nlp a ≠ [] then 1 else 0) }
      else st.adj_stats j := by
  by_cases hj : j = i
  · subst hj
    by_cases hi : j = 1 <;> cases a <;>
      simp [processCell, cellAdjs, cellPresent, upd, hi]
  · by_cases hi : i = 1
    · rw [hi] at hj
      cases a <;> simp [processCell, cellAdjs, cellPresent, upd, hi, hj]
    · cases a <;> simp [processCell, cellAdjs, cellPresent, upd, hi, hj]

/-- Lowercasing fixes whitespace characters. -/
theorem toLower_of_space (c : Char) (h : isPySpace c = true) : Char.toLower c = c := by
  simp only [isPySpace, Bool.or_eq_true, decide_eq_true_eq] at h
  rcases h with ((((h | h) | h) | h) | h) | h <;> rw [h] <;> decide

/-- Dropping leading whitespace from an all-whitespace list leaves
nothing. -/
theorem dropWhile_eq_nil_of_all (l : List Char) (h : ∀ c ∈ l, isPySpace c = true) :
    l.dropWhile isPySpace = [] := by
  induction l with
  | nil => rfl
  | cons x t ih =>
    simp [List.dropWhile_cons, h x (List.mem_cons_self _ _),
      ih fun c hc => h c (List.mem_cons_of_mem _ hc)]

/-- A whitespace-only (or empty) adjective cell yields no candidates. -/
theorem extract_adjectives_blank (s : String)
    (h : ∀ c ∈ s.data, isPySpace c = true) : extract_adjectives (some s) = [] := by
  have hlow : s.data.map Char.toLower = s.data :=
    map_id_of_mem _ fun c hc => toLower_of_space c (h c hc)
  have hstrip : pyStrip s.data = [] := by
    unfold pyStrip
    rw [dropWhile_eq_nil_of_all s.data h]
    rfl
  show (splitOnSeps (pyNormalize s).data).filterMap _ = _
  unfold pyNormalize
  rw [hlow, hstrip]
  rfl

/-- Claim C2 fails on the code: a present but whitespace-only adjective
cell contributes no adjectives, yet the row loop checks only `pd.isna`, so
the cell still increments the per-stimulus `cells` counter and (for an
included stimulus) the overall cells counter — after one row whose only
non-NA field is `Adjectives_1 = " "`, both counters read `1`, where the
claim requires `0`. -/
theorem C2_counterexample :
    extract_adjectives (some " ") = []
    ∧ ((runAnalysis nlp0 [rowBlank]).adj_stats 0).cells = 1
    ∧ (runAnalysis nlp0 [rowBlank]).overall_adj_cells = 1 :=
  ⟨by decide, by decide, by decide⟩

/-- How `processCell` changes `image_results`. -/
theorem pc_image_results (nlp : String → List Token) (st : AnalysisState) (i : Fin 6)
    (d a : Option String) (j : Fin 6) :
    (processCell nlp st i d a).image_results j =
      if j = i then
        { all_tokens := (st.image_results i).all_tokens ++ tokenize_description nlp d
          adjectives := (st.image_results i).adjectives ++ cellAdjs nlp a
          nouns := (st.image_results i).nouns ++ extract_nouns nlp d }
      else st.image_results j := by
  by_cases hj : j = i
  · subst hj
    by_cases hi : j = 1 <;> cases a <;> simp [processCell, cellAdjs, upd, hi]
  · by_cases hi : i = 1
    · rw [hi] at hj
      cases a <;> simp [processCell, cellAdjs, upd, hi, hj]
    · cases a <;> simp [processCell, cellAdjs, upd, hi, hj]

/-- Claim C2 as amended: a missing (NA) adjective cell changes nothing
adjective-related — no counter, no adjective list; a present but blank
(all-whitespace) cell contributes zero adjectives and leaves every
valid-cell counter and adjective list unchanged, but does increment the
per-stimulus cells-processed counter and, for an included stimulus
(`i ≠ 1`), the overall cells counter. -/
theorem C2_blank_cells (nlp : String → List Token) (st : AnalysisState) (i : Fin 6)
    (d : Option String) (s : String) (hs : ∀ c ∈ s.data, isPySpace c = true) :
    ((processCell nlp st i d none).adj_stats = st.adj_stats
      ∧ (processCell nlp st i d none).overall_adj_cells = st.overall_adj_cells
      ∧ (processCell nlp st i d none).overall_adj_valid_cells
          = st.overall_adj_valid_cells
      ∧ (∀ j, ((processCell nlp st i d none).image_results j).adjectives
            = (st.image_results j).adjectives)
      ∧ (processCell nlp st i d none).all_adjectives = st.all_adjectives)
    ∧ (((processCell nlp st i d (some s)).adj_stats i).cells
          = (st.adj_stats i).cells + 1
      ∧ ((processCell nlp st i d (some s)).adj_stats i).valid_cells
          = (st.adj_stats i).valid_cells
      ∧ (∀ j, ((processCell nlp st i d (some s)).image_results j).adjectives
            = (st.image_results j).adjectives)
      ∧ (processCell nlp st i d (some s)).all_adjectives = st.all_adjectives
      ∧ (processCell nlp st i d (some s)).overall_adj_valid_cells
          = st.overall_adj_valid_cells
      ∧ (processCell nlp st i d (some s)).overall_adj_cells
          = st.overall_adj_cells + (if i = 1 then 0 else 1)) := by
  have hblank : cellAdjs nlp (some s) = [] := by
    simp [cellAdjs, extract_adjectives_blank s hs, filter_adjectives]
  refine ⟨⟨?_, ?_, ?_, ?_, ?_⟩, ?_, ?_, ?_, ?_, ?_, ?_⟩
  · funext j
    rw [pc_adj_stats]
    by_cases hj : j = i
    · subst hj
      simp [cellAdjs, cellPresent]
    · simp [hj]
  · rw [pc_overall_cells]; simp [cellPresent]
  · rw [pc_overall_valid]; simp [cellAdjs]
  · intro j
    rw [pc_image_results]
    by_cases hj : j = i
    · subst hj; simp [cellAdjs]
    · simp [hj]
  · rw [pc_all_adjectives]; simp [cellAdjs]
  · rw [pc_adj_stats]; simp [cellPresent]
  · rw [pc_adj_stats]; simp [hblank]
  · intro j
    rw [pc_image_results]
    by_cases hj : j = i
    · subst hj; simp [hblank]
    · simp [hj]
  · rw [pc_all_adjectives]; simp [hblank]
  · rw [pc_overall_valid]; simp [hblank]
  · rw [pc_overall_cells]
    by_cases hi : i = 1 <;> simp [cellPresent, hi]

/-- Witness for the amended C2 at a concrete blank cell. -/
theorem C2_blank_cells_witness :
    ((processCell nlp0 initState 0 none (some " ")).adj_stats 0).cells = 1
    ∧ ((processCell nlp0 initState 0 none (some " ")).adj_stats 0).valid_cells = 0 := by
  have h := C2_blank_cells nlp0 initState 0 none " " (by decide)
  exact ⟨h.2.1, h.2.2.1⟩

/-- One cell step adds to `includedCells` exactly what it adds to the
overall cells counter. -/
theorem includedCells_processCell (nlp : String → List Token) (st : AnalysisState)
    (i : Fin 6) (d a : Option String) :
    includedCells (processCell nlp st i d a)
      = includedCells st + (if i = 1 then 0 else cellPresent a) := by
  have hlist : ((List.finRange 6).filter fun j => decide (j ≠ 1)) = [0, 2, 3, 4, 5] := by
    decide
  simp only [includedCells, hlist, List.map_cons, List.map_nil, List.sum_cons,
    List.sum_nil]
  fin_cases i <;> simp [pc_adj_stats] <;> omega

/-- One cell step preserves the counter invariant. -/
theorem statsInv_processCell (nlp : String → List Token) (st : AnalysisState)
    (i : Fin 6) (d a : Option String) (h : StatsInv st) :
    StatsInv (processCell nlp st i d a) := by
  obtain ⟨h1, h2, h3⟩ := h
  refine ⟨?_, ?_, ?_⟩
  · intro j
    rw [pc_adj_stats]
    by_cases hj : j = i
    · subst hj
      cases a with
      | none =>
        have := h1 j
        simp [cellAdjs, cellPresent]
        omega
      | some x =>
        have := h1 j
        by_cases hv : cellAdjs nlp (some x) ≠ [] <;> simp [hv, cellPresent] <;> omega
    · simp only [hj, if_false]
      exact h1 j
  · rw [pc_overall_valid, pc_overall_cells]
    by_cases hi : i = 1
    · simpa [hi] using h2
    · cases a with
      | none => simp [hi, cellAdjs, cellPresent]; omega
      | some x =>
        by_cases hv : cellAdjs nlp (some x) ≠ [] <;>
          simp [hi, hv, cellPresent] <;> omega
  · rw [pc_overall_cells, includedCells_processCell, h3]

/-- A whole row (six cell steps) preserves the counter invariant. -/
theorem statsInv_processRow (nlp : String → List Token) (st : AnalysisState)
    (row : Row) (h : StatsInv st) : StatsInv (processRow nlp st row) := by
  unfold processRow
  have key : ∀ (l : List (Fin 6)) (s : AnalysisState), StatsInv s →
      StatsInv (l.foldl (fun s i => processCell nlp s i (row.desc i) (row.adj i)) s) := by
    intro l
    induction l with
    | nil => intro s hs; exact hs
    | cons x t ih =>
      intro s hs
      exact ih _ (statsInv_processCell nlp s x _ _ hs)
  exact key _ st h

/-- Claim C10: the counter invariant holds at every point of row
processing — it holds in the initial state, is preserved by every single
cell step (hence at every intermediate point), and therefore holds in the
final state for every input table: each stimulus's valid-cells counter is
at most its cells counter, the overall valid counter is at most the overall
cells counter, and the overall cells counter equals the sum of the cells
counters of the five included stimuli. -/
theorem C10_counter_invariant :
    StatsInv initState
    ∧ (∀ (nlp : String → List Token) (st : AnalysisState) (i : Fin 6)
        (d a : Option String), StatsInv st → StatsInv (processCell nlp st i d a))
    ∧ (∀ (nlp : String → List Token) (rows : List Row),
        StatsInv (runAnalysis nlp rows)) := by
  have hinit : StatsInv initState := by
    refine ⟨fun j => Nat.le_refl 0, Nat.le_refl 0, ?_⟩
    decide
  refine ⟨hinit, statsInv_processCell, fun nlp rows => ?_⟩
  unfold runAnalysis
  have key : ∀ (l : List Row) (s : AnalysisState), StatsInv s →
      StatsInv (l.foldl (processRow nlp) s) := by
    intro l
    induction l with
    | nil => intro s hs; exact hs
    | cons r t ih =>
      intro s hs
      exact ih _ (statsInv_processRow nlp s r hs)
  exact key rows initState hinit

/-- Witness for C10: the invariant is preserved through a concrete cell
step from the initial state. -/
theorem C10_counter_invariant_witness :
    StatsInv (processCell nlp0 initState 0 none (some " ")) :=
  C10_counter_invariant.2.1 nlp0 initState 0 none (some " ") C10_counter_invariant.1

/-- A cell step preserves global agreement: at the excluded index the cell
contents may differ arbitrarily, elsewhere they must coincide. -/
theorem globalAgree_processCell (nlp : String → List Token) (s s' : AnalysisState)
    (i : Fin 6) (d a d' a' : Option String) (hg : GlobalAgree s s')
    (hcell : i ≠ 1 → d = d' ∧ a = a') :
    GlobalAgree (processCell nlp s i d a) (processCell nlp s' i d' a') := by
  obtain ⟨t1, t2, t3, t4, t5, t6⟩ := hg
  by_cases hi : i = 1
  · subst hi
    refine ⟨?_, ?_, ?_, ?_, ?_, ?_⟩
    · rw [pc_all_tokens, pc_all_tokens]; simp [t1]
    · rw [pc_all_adjectives, pc_all_adjectives]; simp [t2]
    · rw [pc_all_nouns, pc_all_nouns]; simp [t3]
    · rw [pc_overall_cells, pc_overall_cells]; simp [t4]
    · rw [pc_overall_valid, pc_overall_valid]; simp [t5]
    · intro j hj
      rw [pc_image_results, pc_image_results, pc_adj_stats, pc_adj_stats]
      simp only [hj, if_false]
      exact t6 j hj
  · obtain ⟨hd, ha⟩ := hcell hi
    subst hd
    subst ha
    refine ⟨?_, ?_, ?_, ?_, ?_, ?_⟩
    · rw [pc_all_tokens, pc_all_tokens, t1]
    · rw [pc_all_adjectives, pc_all_adjectives, t2]
    · rw [pc_all_nouns, pc_all_nouns, t3]
    · rw [pc_overall_cells, pc_overall_cells, t4]
    · rw [pc_overall_valid, pc_overall_valid, t5]
    · intro j hj
      rw [pc_image_results, pc_image_results, pc_adj_stats, pc_adj_stats]
      by_cases hj2 : j = i
      · obtain ⟨hir, has⟩ := t6 i hi
        simp [hj2, hir, has]
      · simp only [hj2, if_false]
        exact t6 j hj

/-- A row step preserves global agreement when the rows agree outside the
excluded stimulus. -/
theorem globalAgree_processRow (nlp : String → List Token) (s s' : AnalysisState)
    (r r' : Row) (hg : GlobalAgree s s') (hr : AgreeRow r r') :
    GlobalAgree (processRow nlp s r) (processRow nlp s' r') := by
  unfold processRow
  have key : ∀ (l : List (Fin 6)) (s s' : AnalysisState), GlobalAgree s s' →
      GlobalAgree (l.foldl (fun st i => processCell nlp st i (r.desc i) (r.adj i)) s)
        (l.foldl (fun st i => processCell nlp st i (r'.desc i) (r'.adj i)) s') := by
    intro l
    induction l with
    | nil => exact fun s s' h => h
    | cons x t ih =>
      intro s s' h
      exact ih _ _ (globalAgree_processCell nlp s s' x _ _ _ _ h fun hx =>
        ⟨(hr x hx).1, (hr x hx).2⟩)
  exact key _ s s' hg

/-- Whole-table runs on row lists that agree outside the excluded stimulus
agree globally. -/
theorem globalAgree_runAnalysis (nlp : String → List Token) (rows rows' : List Row)
    (h : List.Forall₂ AgreeRow rows rows') :
    GlobalAgree (runAnalysis nlp rows) (runAnalysis nlp rows') := by
  unfold runAnalysis
  have key : ∀ (l l' : List Row), List.Forall₂ AgreeRow l l' →
      ∀ (s s' : AnalysisState), GlobalAgree s s' →
        GlobalAgree (l.foldl (processRow nlp) s) (l'.foldl (processRow nlp) s') := by
    intro l l' hll
    induction hll with
    | nil => exact fun s s' h => h
    | cons hr _ ih =>
      intro s s' hss
      exact ih _ _ (globalAgree_processRow nlp s s' _ _ hss hr)
  exact key rows rows' h initState initState
    ⟨rfl, rfl, rfl, rfl, rfl, fun _ _ => ⟨rfl, rfl⟩⟩

/-- The exported column names, in order: six per image, then the overall
six — independent of the analysed data. -/
theorem csv_names (st : AnalysisState) :
    (csv_data st).map Prod.fst =
      ["Image_1_Free_Word", "Image_1_Free_Freq", "Image_1_Adj_Word",
       "Image_1_Adj_Freq", "Image_1_Noun_Word", "Image_1_Noun_Freq",
       "Image_2_Free_Word", "Image_2_Free_Freq", "Image_2_Adj_Word",
       "Image_2_Adj_Freq", "Image_2_Noun_Word", "Image_2_Noun_Freq",
       "Image_3_Free_Word", "Image_3_Free_Freq", "Image_3_Adj_Word",
       "Image_3_Adj_Freq", "Image_3_Noun_Word", "Image_3_Noun_Freq",
       "Image_4_Free_Word", "Image_4_Free_Freq", "Image_4_Adj_Word",
       "Image_4_Adj_Freq", "Image_4_Noun_Word", "Image_4_Noun_Freq",
       "Image_5_Free_Word", "Image_5_Free_Freq", "Image_5_Adj_Word",
       "Image_5_Adj_Freq", "Image_5_Noun_Word", "Image_5_Noun_Freq",
       "Image_6_Free_Word", "Image_6_Free_Freq", "Image_6_Adj_Word",
       "Image_6_Adj_Freq", "Image_6_Noun_Word", "Image_6_Noun_Freq",
       "Overall_Free_Word", "Overall_Free_Freq", "Overall_Adj_Word",
       "Overall_Adj_Freq", "Overall_Noun_Word", "Overall_Noun_Freq"] := by
  have h6 : List.finRange 6 = [0, 1, 2, 3, 4, 5] := by decide
  simp only [csv_data, h6, imageCols, List.map_cons, List.map_nil,
    List.flatten_cons, List.flatten_nil, List.cons_append, List.nil_append,
    List.append_nil]
  decide

/-- Claim C4: inputs that differ only in the excluded stimulus's
(`Description_2`/`Adjectives_2`) fields produce identical overall token,
adjective and noun frequency tables and identical overall cell counters —
no contribution from stimulus 2 reaches the overall aggregates — while the
export still carries stimulus 2's own report columns. -/
theorem C4_overall_excludes_stimulus2 (nlp : String → List Token)
    (rows rows' : List Row) (h : List.Forall₂ AgreeRow rows rows') :
    most_common (runAnalysis nlp rows).all_tokens
        = most_common (runAnalysis nlp rows').all_tokens
    ∧ most_common (runAnalysis nlp rows).all_adjectives
        = most_common (runAnalysis nlp rows').all_adjectives
    ∧ most_common (runAnalysis nlp rows).all_nouns
        = most_common (runAnalysis nlp rows').all_nouns
    ∧ (runAnalysis nlp rows).overall_adj_cells
        = (runAnalysis nlp rows').overall_adj_cells
    ∧ (runAnalysis nlp rows).overall_adj_valid_cells
        = (runAnalysis nlp rows').overall_adj_valid_cells
    ∧ "Image_2_Adj_Word" ∈ (csv_data (runAnalysis nlp rows)).map Prod.fst := by
  obtain ⟨t1, t2, t3, t4, t5, _⟩ := globalAgree_runAnalysis nlp rows rows' h
  refine ⟨by rw [t1], by rw [t2], by rw [t3], t4, t5, ?_⟩
  rw [csv_names]
  decide

/-- Witness for C4 at two concrete tables differing only in stimulus 2. -/
theorem C4_overall_excludes_stimulus2_witness :
    (runAnalysis nlp0 [rowA]).overall_adj_cells
      = (runAnalysis nlp0 [rowB]).overall_adj_cells := by
  have hagree : AgreeRow rowA rowB := by
    intro i hi
    constructor
    · simp [rowA, rowB, hi]
    · rfl
  exact (C4_overall_excludes_stimulus2 nlp0 [rowA] [rowB]
    (List.Forall₂.cons hagree List.Forall₂.nil)).2.2.2.1

/-- Inserting adds exactly one element. -/
theorem insertDesc_length (cnt : String → Nat) (x : String) :
    ∀ l, (insertDesc cnt x l).length = l.length + 1
  | [] => rfl
  | y :: ys => by
    by_cases hlt : cnt x < cnt y <;>
      simp [insertDesc, hlt, insertDesc_length cnt x ys]

/-- The sort does not change the number of entries. -/
theorem isortDesc_length (cnt : String → Nat) :
    ∀ l, (isortDesc cnt l).length = l.length
  | [] => rfl
  | x :: xs => by
    show (insertDesc cnt x (isortDesc cnt xs)).length = _
    rw [insertDesc_length, isortDesc_length cnt xs, List.length_cons]

/-- The full ranking has one entry per distinct element. -/
theorem most_common_length (l : List String) :
    (most_common l).length = rankedLen l := by
  unfold most_common rankedLen
  rw [List.length_map, isortDesc_length]

/-- `most_common(n)` loses nothing once `n` covers the whole table. -/
theorem most_common_n_all (n : Nat) (l : List String) (h : rankedLen l ≤ n) :
    most_common_n n l = most_common l := by
  unfold most_common_n
  rw [List.take_of_length_le]
  rw [most_common_length]
  exact h

/-- A word column always has exactly `m` entries. -/
theorem wordCol_length (m : Nat) (l : List String) : (wordCol m l).length = m := by
  simp only [wordCol, most_common_n, List.length_append, List.length_map,
    List.length_replicate, List.length_take]
  omega

/-- A frequency column always has exactly `m` entries. -/
theorem freqCol_length (m : Nat) (l : List String) : (freqCol m l).length = m := by
  simp only [freqCol, most_common_n, List.length_append, List.length_map,
    List.length_replicate, List.length_take]
  omega

/-- The seed of a running maximum bounds the result. -/
theorem foldl_max_init_le (f : Fin 6 → Nat) :
    ∀ (l : List (Fin 6)) (a : Nat), a ≤ l.foldl (fun m y => max m (f y)) a
  | [], _ => Nat.le_refl _
  | x :: t, a =>
    Nat.le_trans (Nat.le_max_left a (f x)) (foldl_max_init_le f t (max a (f x)))

/-- Every listed value bounds below the running maximum. -/
theorem mem_le_foldl_max (f : Fin 6 → Nat) :
    ∀ (l : List (Fin 6)) (a : Nat), ∀ x ∈ l, f x ≤ l.foldl (fun m y => max m (f y)) a
  | x :: t, a, y, hy => by
    rcases List.mem_cons.mp hy with h | h
    · subst h
      exact Nat.le_trans (Nat.le_max_right a (f y)) (foldl_max_init_le f t _)
    · exact mem_le_foldl_max f t _ y h

/-- Each image's three table lengths are bounded by the image maximum. -/
theorem imageMax_bounds (st : AnalysisState) (i : Fin 6) :
    rankedLen ((st.image_results i).all_tokens) ≤ imageMax st
    ∧ rankedLen ((st.image_results i).adjectives) ≤ imageMax st
    ∧ rankedLen ((st.image_results i).nouns) ≤ imageMax st := by
  have hmem := mem_le_foldl_max
    (fun i => max (rankedLen ((st.image_results i).all_tokens))
      (max (rankedLen ((st.image_results i).adjectives))
        (rankedLen ((st.image_results i).nouns))))
    (List.finRange 6) 0 i (List.mem_finRange i)
  simp only at hmem
  unfold imageMax
  exact ⟨Nat.le_trans (Nat.le_max_left _ _) hmem,
    Nat.le_trans (Nat.le_trans (Nat.le_max_left _ _) (Nat.le_max_right _ _)) hmem,
    Nat.le_trans (Nat.le_trans (Nat.le_max_right _ _) (Nat.le_max_right _ _)) hmem⟩

/-- Every one of the 21 ranked tables fits within `max_rows`. -/
theorem max_rows_bounds (st : AnalysisState) :
    (∀ i : Fin 6,
      rankedLen ((st.image_results i).all_tokens) ≤ max_rows st
      ∧ rankedLen ((st.image_results i).adjectives) ≤ max_rows st
      ∧ rankedLen ((st.image_results i).nouns) ≤ max_rows st)
    ∧ rankedLen st.all_tokens ≤ max_rows st
    ∧ rankedLen st.all_adjectives ≤ max_rows st
    ∧ rankedLen st.all_nouns ≤ max_rows st := by
  have him : imageMax st ≤ max_rows st := by
    unfold max_rows
    omega
  refine ⟨fun i => ?_, ?_, ?_, ?_⟩
  · obtain ⟨b1, b2, b3⟩ := imageMax_bounds st i
    exact ⟨Nat.le_trans b1 him, Nat.le_trans b2 him, Nat.le_trans b3 him⟩
  · unfold max_rows; omega
  · unfold max_rows; omega
  · unfold max_rows; omega

/-- Every column of one image block has exactly `m` entries. -/
theorem imageCols_length (m : Nat) (name : String) (r : ImageResult) :
    ∀ p ∈ imageCols m name r, p.2.length = m := by
  intro p hp
  simp only [imageCols, List.mem_cons, List.not_mem_nil, or_false] at hp
  rcases hp with h | h | h | h | h | h <;> rw [h] <;>
    first | exact wordCol_length _ _ | exact freqCol_length _ _

/-- Every column of the export has exactly `max_rows` entries. -/
theorem csv_data_col_length (st : AnalysisState) :
    ∀ p ∈ csv_data st, p.2.length = max_rows st := by
  intro p hp
  unfold csv_data at hp
  rcases List.mem_append.mp hp with h | h
  · rcases List.mem_flatten.mp h with ⟨L, hL, hpL⟩
    rcases List.mem_map.mp hL with ⟨i, _, hiL⟩
    rw [← hiL] at hpL
    exact imageCols_length _ _ _ p hpL
  · exact imageCols_length _ _ _ p h

/-- Claim C7: the export has 42 columns, every column is padded with empty
strings to exactly `max_rows` entries (the maximum ranked-table length over
the six per-stimulus tables and the overall roll-up), every table fits in
`max_rows`, and a table that fits is never truncated by
`most_common(max_rows)`. -/
theorem C7_csv_padding (st : AnalysisState) :
    (csv_data st).length = 42
    ∧ (∀ p ∈ csv_data st, p.2.length = max_rows st)
    ∧ (∀ i : Fin 6,
        rankedLen ((st.image_results i).all_tokens) ≤ max_rows st
        ∧ rankedLen ((st.image_results i).adjectives) ≤ max_rows st
        ∧ rankedLen ((st.image_results i).nouns) ≤ max_rows st)
    ∧ rankedLen st.all_tokens ≤ max_rows st
    ∧ rankedLen st.all_adjectives ≤ max_rows st
    ∧ rankedLen st.all_nouns ≤ max_rows st
    ∧ (∀ l : List String, rankedLen l ≤ max_rows st →
        most_common_n (max_rows st) l = most_common l) := by
  obtain ⟨b1, b2, b3, b4⟩ := max_rows_bounds st
  refine ⟨?_, csv_data_col_length st, b1, b2, b3, b4,
    fun l hl => most_common_n_all _ l hl⟩
  have h := congrArg List.length (csv_names st)
  simpa using h

/-- Witness for C7's no-truncation clause at a concrete state. -/
theorem C7_csv_padding_witness :
    most_common_n (max_rows initState) [] = most_common [] :=
  (C7_csv_padding initState).2.2.2.2.2.2 [] (by decide)
